import Mathlib

/-!
# IsoCellSet: a shallow embedding of JavaScriptCore's IsoCellSet inlines

This file embeds `Source/JavaScriptCore/heap/IsoCellSetInlines.h` from the
repository: a two-tier membership bitmap over a segregated heap.  Cells are
either "precise" (large-object tier, identified by a dense lower-tier index)
or block-resident (identified by a `(blockIndex, atomNumber)` pair).  The set
keeps one bit vector for the precise tier (`m_lowerTierPreciseBits`), a lazily
created per-block bitmap table (`m_bits`), and a coarse per-block non-empty
flag vector (`m_blocksWithBits`).

Bit vectors are embedded as functions `Nat → Bool`; the lazily created
per-block bitmaps as `Option (Nat → Bool)` (null pointer = `none`).  The
stateful C++ operations become explicit state-passing functions returning the
C++ return value paired with the updated set.
-/

set_option autoImplicit false

namespace JSC

/-- A heap cell: either a precise (large-object / lower-tier) allocation with
its dense index, or a block-resident cell at `(blockIndex, atomNumber)`.
`AtomIndices(cell)` in the source computes exactly this pair, and
`cell->isPreciseAllocation()` is the tier test. -/
inductive HeapCell where
  | precise (lowerTierPreciseIndex : Nat)
  | atom (blockIndex : Nat) (atomNumber : Nat)
deriving DecidableEq, Repr

/-- One marked block handle, as consumed from the external directory: its atom
capacity, its per-atom marked bits (read by `forEachMarkedCell`) and per-atom
liveness bits (read by `forEachCell` + `isLive` in `forEachLiveCell`). -/
structure BlockHandle where
  numAtoms : Nat
  markedBits : Nat → Bool
  liveBits : Nat → Bool

/-- The block directory, as consumed externally: block count, per-index block
handles (`m_blocks`), and the per-block "has any marked cell" summary view
(`markingNotEmptyBitsView`). -/
structure BlockDirectory where
  numBlocks : Nat
  m_blocks : Nat → BlockHandle
  markingNotEmpty : Nat → Bool

/-- One precise (large-object) allocation of the owning subspace, with its
dense lower-tier index and its collector-owned marked / live flags. -/
structure PreciseAllocation where
  lowerTierPreciseIndex : Nat
  isMarked : Bool
  isLive : Bool
deriving DecidableEq, Repr

/-- The owning subspace: its block directory (`m_directory`) and its list of
precise allocations (iterated by `forEachPreciseAllocation`). -/
structure Subspace where
  m_directory : BlockDirectory
  preciseAllocations : List PreciseAllocation

/-- The cell set state: the subspace back-reference, the precise-tier bit
vector `m_lowerTierPreciseBits`, the per-block bitmap table `m_bits`
(`none` = bitmap pointer not yet created), and the coarse non-empty flag
vector `m_blocksWithBits`. -/
structure IsoCellSet where
  m_subspace : Subspace
  m_lowerTierPreciseBits : Nat → Bool
  m_bits : Nat → Option (Nat → Bool)
  m_blocksWithBits : Nat → Bool

namespace IsoCellSet

/-- A fresh set bound to a subspace: every bit clear, no block bitmap
created. -/
def initial (subspace : Subspace) : IsoCellSet :=
  { m_subspace := subspace
    m_lowerTierPreciseBits := fun _ => false
    m_bits := fun _ => none
    m_blocksWithBits := fun _ => false }

/-- Modelled from the spec: `IsoCellSet::addSlow` (declared in the header but
defined in `IsoCellSet.cpp`, which is not part of this repository snapshot) —
the race-safe lazy provisioning path of §4.2: construct an empty candidate
bitmap, install it into the table slot, and set the block's
`NonEmptyBlockIndex` flag no later than installation.  In this sequential
embedding the install always succeeds and both effects land together; it
returns the installed bitmap for the caller's subsequent test-and-set. -/
def addSlow (s : IsoCellSet) (blockIndex : Nat) : (Nat → Bool) × IsoCellSet :=
  let newBits : Nat → Bool := fun _ => false
  (newBits,
    { s with
      m_bits := fun i => if i = blockIndex then some newBits else s.m_bits i
      m_blocksWithBits := fun i => if i = blockIndex then true else s.m_blocksWithBits i })

/-- `IsoCellSet::add`: precise tier does `concurrentTestAndSet` on
`m_lowerTierPreciseBits` and returns the inverse of the previous bit; block
tier fetches (provisioning if absent) the block's bitmap, test-and-sets the
atom's bit, and returns the inverse of the previous bit. -/
def add (s : IsoCellSet) (cell : HeapCell) : Bool × IsoCellSet :=
  match cell with
  | .precise idx =>
    let prev := s.m_lowerTierPreciseBits idx
    (!prev,
      { s with
        m_lowerTierPreciseBits := fun j => if j = idx then true else s.m_lowerTierPreciseBits j })
  | .atom blockIndex atomNumber =>
    let (bits, s1) :=
      match s.m_bits blockIndex with
      | some b => (b, s)
      | none => s.addSlow blockIndex
    let prev := bits atomNumber
    (!prev,
      { s1 with
        m_bits := fun i =>
          if i = blockIndex then some (fun a => if a = atomNumber then true else bits a)
          else s1.m_bits i })

/-- `IsoCellSet::remove`: precise tier does `concurrentTestAndClear` and
returns its result; block tier returns `false` unchanged when the block's
bitmap was never created, else test-and-clears the atom's bit and returns its
result. -/
def remove (s : IsoCellSet) (cell : HeapCell) : Bool × IsoCellSet :=
  match cell with
  | .precise idx =>
    let prev := s.m_lowerTierPreciseBits idx
    (prev,
      { s with
        m_lowerTierPreciseBits := fun j => if j = idx then false else s.m_lowerTierPreciseBits j })
  | .atom blockIndex atomNumber =>
    match s.m_bits blockIndex with
    | none => (false, s)
    | some b =>
      (b atomNumber,
        { s with
          m_bits := fun i =>
            if i = blockIndex then some (fun a => if a = atomNumber then false else b a)
            else s.m_bits i })

/-- `IsoCellSet::contains`: a plain read.  Note the source returns
`!m_lowerTierPreciseBits.get(...)` for the precise tier — the NEGATED bit —
while the block tier returns the bit itself (false when the bitmap pointer is
null).  The negation is embedded faithfully. -/
def contains (s : IsoCellSet) (cell : HeapCell) : Bool :=
  match cell with
  | .precise idx => !(s.m_lowerTierPreciseBits idx)
  | .atom blockIndex atomNumber =>
    match s.m_bits blockIndex with
    | some b => b atomNumber
    | none => false

/-- The ground-truth membership bit of a cell: the precise-tier bit for a
precise allocation, the block bitmap's atom bit otherwise (0 when the bitmap
does not exist).  This is the "single corresponding bit" the spec speaks
about; it is what `add` sets and `remove` clears. -/
def cellBit (s : IsoCellSet) (cell : HeapCell) : Bool :=
  match cell with
  | .precise idx => s.m_lowerTierPreciseBits idx
  | .atom blockIndex atomNumber =>
    match s.m_bits blockIndex with
    | some b => b atomNumber
    | none => false

/-- The block-tier body of `forEachMarkedCell` for one block: the block's
marked-cell iteration (`block->forEachMarkedCell`, yielding each atom whose
marked bit is set, in atom order) filtered by this set's bit for the atom
(`bits->get(atomNumber)`).  The source dereferences the bitmap pointer with no
null check; the embedding reads an all-zero bitmap through `Option.getD` when
the pointer is null, which filters everything out. -/
def markedMemberAtomsOfBlock (s : IsoCellSet) (blockIndex : Nat) : List HeapCell :=
  let block := s.m_subspace.m_directory.m_blocks blockIndex
  let bits := (s.m_bits blockIndex).getD (fun _ => false)
  (List.range block.numAtoms).filterMap fun atomNumber =>
    if block.markedBits atomNumber then
      if bits atomNumber then some (HeapCell.atom blockIndex atomNumber) else none
    else none

/-- The precise-allocation tail shared by `forEachMarkedCell` and the parallel
task: visit each allocation of the subspace whose lower-tier bit is set in
this set and whose `isMarked` flag is set. -/
def markedPreciseVisits (s : IsoCellSet) : List HeapCell :=
  s.m_subspace.preciseAllocations.filterMap fun allocation =>
    if s.m_lowerTierPreciseBits allocation.lowerTierPreciseIndex && allocation.isMarked then
      some (HeapCell.precise allocation.lowerTierPreciseIndex)
    else none

/-- `IsoCellSet::forEachMarkedCell`: intersect the directory's
`markingNotEmptyBitsView` with `m_blocksWithBits`, visit each surviving
block's marked atoms whose set bit is on, then sweep the subspace's precise
allocations visiting those whose set bit and `isMarked` flag are both on.
The visitor calls are collected as the returned list, in call order. -/
def forEachMarkedCell (s : IsoCellSet) : List HeapCell :=
  ((List.range s.m_subspace.m_directory.numBlocks).flatMap fun blockIndex =>
    if s.m_subspace.m_directory.markingNotEmpty blockIndex && s.m_blocksWithBits blockIndex then
      s.markedMemberAtomsOfBlock blockIndex
    else []) ++ s.markedPreciseVisits

/-- `IsoCellSet::forEachLiveCell`: iterate the blocks flagged in
`m_blocksWithBits` alone (no marking view); for each, iterate ALL atoms of the
block (`block->forEachCell`) and visit those whose set bit is on and which the
block reports live (`block->isLive(cell)`); then sweep the precise
allocations visiting those whose set bit and `isLive` flag are both on. -/
def forEachLiveCell (s : IsoCellSet) : List HeapCell :=
  ((List.range s.m_subspace.m_directory.numBlocks).flatMap fun blockIndex =>
    if s.m_blocksWithBits blockIndex then
      let block := s.m_subspace.m_directory.m_blocks blockIndex
      let bits := (s.m_bits blockIndex).getD (fun _ => false)
      (List.range block.numAtoms).filterMap fun atomNumber =>
        if bits atomNumber && block.liveBits atomNumber then
          some (HeapCell.atom blockIndex atomNumber)
        else none
    else []) ++
  (s.m_subspace.preciseAllocations.filterMap fun allocation =>
    if s.m_lowerTierPreciseBits allocation.lowerTierPreciseIndex && allocation.isLive then
      some (HeapCell.precise allocation.lowerTierPreciseIndex)
    else none)

/-- Modelled from the spec: `parallelNotEmptyMarkedBlockSource` (declared
outside this repository snapshot) — the thread-safe exactly-once work source
over the not-yet-visited marked non-empty blocks, §2/§4.4: it hands out each
block of the §4.3 intersection (directory marking-not-empty view ∩ this set's
non-empty index) exactly once across the whole run.  The embedding returns
that population; a run distributes it among the workers. -/
def parallelNotEmptyMarkedBlockSource (s : IsoCellSet) : List Nat :=
  (List.range s.m_subspace.m_directory.numBlocks).filter fun blockIndex =>
    s.m_subspace.m_directory.markingNotEmpty blockIndex && s.m_blocksWithBits blockIndex

end IsoCellSet

/-- The visitor calls one parallel worker makes in `Task::run` of
`forEachMarkedCellInParallel`: the per-block loop over the blocks this worker
claimed from the shared source (same per-atom predicate as
`forEachMarkedCell`), then — only when this worker's
`m_doneVisitingPreciseAllocations.test_and_set` returned false, i.e. it won
the one-shot flag — the precise-allocation sweep. -/
def workerVisits (s : IsoCellSet) (claimedBlocks : List Nat) (wonSweepFlag : Bool) :
    List HeapCell :=
  (claimedBlocks.flatMap fun blockIndex => s.markedMemberAtomsOfBlock blockIndex) ++
    (if wonSweepFlag then s.markedPreciseVisits else [])

/-- The `std::atomic_flag::test_and_set` results seen by successive claimers
of a flag whose current value is the first argument: each claimer reads the
current value and leaves the flag set.  A claimer proceeds to the sweep
exactly when it read `false`. -/
def flagClaims (flag : Bool) : Nat → List Bool
  | 0 => []
  | n + 1 => flag :: flagClaims true n

/-- The `test_and_set` results of `n` claimers of the initially clear
`m_doneVisitingPreciseAllocations` flag, in claim order. -/
def flagClaimResults (n : Nat) : List Bool :=
  flagClaims false n

/-- Total visits of one complete parallel run: worker `i` claimed the list
`parts[i]` from the shared block source and observed the `i`-th (in
flag-claim order) `test_and_set` result; the run's visitor calls are the
workers' visits combined.  Counting per cell is interleaving-invariant, so
the combination is taken as concatenation. -/
def parallelRunVisits (s : IsoCellSet) (parts : List (List Nat)) : List HeapCell :=
  (List.zip parts (flagClaimResults parts.length)).flatMap fun p =>
    workerVisits s p.1 (!p.2)

/-- One membership operation, for describing sequential histories of a set. -/
inductive SetOp where
  | add (cell : HeapCell)
  | remove (cell : HeapCell)

/-- Apply a sequential history of `add` / `remove` operations. -/
def applyOps (s : IsoCellSet) : List SetOp → IsoCellSet
  | [] => s
  | SetOp.add c :: rest => applyOps (s.add c).2 rest
  | SetOp.remove c :: rest => applyOps (s.remove c).2 rest

/-- The results of `n` successive `add cell` calls, with no intervening
operation on the set. -/
def addResults (s : IsoCellSet) (cell : HeapCell) : Nat → List Bool
  | 0 => []
  | n + 1 =>
    let r := s.add cell
    r.1 :: addResults r.2 cell n

/-- The §8 scenario's subspace: a directory with 2 blocks of 4 atoms each and
one precise allocation.  Marked: atoms 0 and 1 of block 0, atom 1 of block 1,
and the precise allocation.  All cells are live. -/
def scenarioSubspace : Subspace :=
  { m_directory :=
      { numBlocks := 2
        m_blocks := fun blockIndex =>
          { numAtoms := 4
            markedBits := fun a =>
              if blockIndex = 0 then decide (a = 0) || decide (a = 1) else decide (a = 1)
            liveBits := fun _ => true }
        markingNotEmpty := fun _ => true }
    preciseAllocations := [{ lowerTierPreciseIndex := 0, isMarked := true, isLive := true }] }

/-- The §8 scenario's set: add atoms 0 and 2 of block 0, atom 1 of block 1,
and the precise allocation, starting from a fresh set over
`scenarioSubspace`. -/
def scenarioSet : IsoCellSet :=
  applyOps (IsoCellSet.initial scenarioSubspace)
    [SetOp.add (HeapCell.atom 0 0), SetOp.add (HeapCell.atom 0 2),
     SetOp.add (HeapCell.atom 1 1), SetOp.add (HeapCell.precise 0)]

/-!
## The first-add provisioning race

Modelled from the spec: the §4.2 lazy-provisioning race for one block whose
bitmap does not exist yet (`addSlow` itself lives in `IsoCellSet.cpp`, outside
this repository snapshot).  Each racing thread runs a two-step program over
the shared state: (step 0) construct a candidate bitmap, set the block's
`NonEmptyBlockIndex` flag no later than installation, and attempt the atomic
compare-and-swap install — the slot keeps the first installer and later
candidates are discarded, the loser adopting the winner; (step 1) perform the
original `concurrentTestAndSet` of its intended atom bit on whichever bitmap
ended up installed.  An interleaving is an arbitrary schedule of thread ids.
-/

/-- Shared state of the provisioning race for one block: the block's
`NonEmptyBlockIndex` flag, the bitmap slot (`some t` = the candidate
constructed by thread `t` is installed, `none` = null pointer), the installed
bitmap's contents, and each thread's program counter (0 = before install
attempt, 1 = adopted the installed bitmap, 2 = done). -/
structure RaceState where
  flag : Bool
  slot : Option Nat
  bitmapBits : Nat → Bool
  pc : Nat → Nat

/-- Modelled from the spec: initial race state — flag clear, no bitmap
installed, no thread started. -/
def RaceState.init : RaceState :=
  { flag := false, slot := none, bitmapBits := fun _ => false, pc := fun _ => 0 }

/-- Modelled from the spec: one atomic step of thread `t` in the §4.2
provisioning race; `intents t` is the atom number thread `t` is adding. -/
def raceStep (intents : Nat → Nat) (s : RaceState) (t : Nat) : RaceState :=
  match s.pc t with
  | 0 =>
    { s with
      flag := true
      slot := match s.slot with | none => some t | some k => some k
      pc := fun u => if u = t then 1 else s.pc u }
  | 1 =>
    { s with
      bitmapBits := fun a => if a = intents t then true else s.bitmapBits a
      pc := fun u => if u = t then 2 else s.pc u }
  | _ => s

/-- Run a schedule (an arbitrary interleaving of thread steps) of the
provisioning race from the initial state. -/
def raceRun (intents : Nat → Nat) (sched : List Nat) : RaceState :=
  sched.foldl (raceStep intents) RaceState.init

/-!
## Basic lemmas about the membership operations
-/

theorem add_fst (s : IsoCellSet) (c : HeapCell) : (s.add c).1 = !s.cellBit c := by
  cases c with
  | precise idx => rfl
  | atom bI aN =>
    simp only [IsoCellSet.add, IsoCellSet.cellBit]
    cases h : s.m_bits bI <;> simp [h, IsoCellSet.addSlow]

theorem add_cellBit_self (s : IsoCellSet) (c : HeapCell) : (s.add c).2.cellBit c = true := by
  cases c with
  | precise idx => simp [IsoCellSet.add, IsoCellSet.cellBit]
  | atom bI aN =>
    simp only [IsoCellSet.add, IsoCellSet.cellBit]
    cases h : s.m_bits bI <;> simp [h, IsoCellSet.addSlow]

theorem remove_fst (s : IsoCellSet) (c : HeapCell) : (s.remove c).1 = s.cellBit c := by
  cases c with
  | precise idx => rfl
  | atom bI aN =>
    simp only [IsoCellSet.remove, IsoCellSet.cellBit]
    cases h : s.m_bits bI <;> simp [h]

theorem remove_cellBit_self (s : IsoCellSet) (c : HeapCell) :
    (s.remove c).2.cellBit c = false := by
  cases c with
  | precise idx => simp [IsoCellSet.remove, IsoCellSet.cellBit]
  | atom bI aN =>
    simp only [IsoCellSet.remove, IsoCellSet.cellBit]
    cases h : s.m_bits bI <;> simp [h]

theorem addResults_of_cellBit_true (c : HeapCell) :
    ∀ (n : Nat) (s : IsoCellSet), s.cellBit c = true →
      addResults s c n = List.replicate n false := by
  intro n
  induction n with
  | zero => intro s _; rfl
  | succ n ih =>
    intro s h
    have h1 : (s.add c).1 = false := by rw [add_fst, h]; rfl
    have h2 := add_cellBit_self s c
    simp [addResults, h1, ih (s.add c).2 h2, List.replicate_succ]

/-!
## C1–C4: the membership-operation contracts
-/

/-- C1: the claim says `contains(cell)` is true iff the cell's single
membership bit is 1.  The source instead returns the NEGATED bit for a
precise-tier cell (`return !m_lowerTierPreciseBits.get(...)`): on a fresh set
the precise cell's bit is 0 yet `contains` answers `true`, and after `add`
sets the bit to 1 `contains` answers `false`.  (The block tier, and the
absent-bitmap case, do behave as claimed, and `contains` is a pure read by
construction.) -/
theorem contains_precise_negates_bit :
    (IsoCellSet.initial scenarioSubspace).cellBit (HeapCell.precise 0) = false ∧
    (IsoCellSet.initial scenarioSubspace).contains (HeapCell.precise 0) = true ∧
    ((IsoCellSet.initial scenarioSubspace).add (HeapCell.precise 0)).2.cellBit
      (HeapCell.precise 0) = true ∧
    ((IsoCellSet.initial scenarioSubspace).add (HeapCell.precise 0)).2.contains
      (HeapCell.precise 0) = false ∧
    (∀ (s : IsoCellSet) (bI aN : Nat),
      s.contains (HeapCell.atom bI aN) = s.cellBit (HeapCell.atom bI aN)) := by
  refine ⟨rfl, rfl, by decide, by decide, ?_⟩
  intro s bI aN
  rfl

/-- C2: the claimed round trip (`contains` false before `add`, true after
`add`, false again after `remove`) fails on the precise tier because
`contains` returns the negated bit: on a fresh set the never-added precise
cell 0 already satisfies `contains = true`, after `add` it satisfies
`contains = false`, and after the subsequent `remove` it is back to `true` —
the exact inversion of the claim.  The same round trip on a block-tier cell
does hold. -/
theorem roundTrip_fails_on_precise_tier :
    ((IsoCellSet.initial scenarioSubspace).contains (HeapCell.precise 0) = true ∧
     ((IsoCellSet.initial scenarioSubspace).add (HeapCell.precise 0)).2.contains
       (HeapCell.precise 0) = false ∧
     (((IsoCellSet.initial scenarioSubspace).add (HeapCell.precise 0)).2.remove
       (HeapCell.precise 0)).2.contains (HeapCell.precise 0) = true) ∧
    ((IsoCellSet.initial scenarioSubspace).contains (HeapCell.atom 0 0) = false ∧
     ((IsoCellSet.initial scenarioSubspace).add (HeapCell.atom 0 0)).2.contains
       (HeapCell.atom 0 0) = true ∧
     (((IsoCellSet.initial scenarioSubspace).add (HeapCell.atom 0 0)).2.remove
       (HeapCell.atom 0 0)).2.contains (HeapCell.atom 0 0) = false) := by
  exact ⟨⟨by decide, by decide, by decide⟩, ⟨by decide, by decide, by decide⟩⟩

/-- C3: `add` returns true iff the call transitioned the cell's bit from 0 to
1 (its result is the negation of the previous bit, and the bit is 1
afterwards), and across `n + 1` successive `add c` calls with no intervening
`remove c`, starting from any state where the bit is 0, exactly the first
call returns true. -/
theorem add_true_iff_transition :
    ∀ (s : IsoCellSet) (c : HeapCell),
      ((s.add c).1 = !s.cellBit c) ∧
      ((s.add c).2.cellBit c = true) ∧
      (∀ n : Nat, s.cellBit c = false →
        addResults s c (n + 1) = true :: List.replicate n false) := by
  intro s c
  refine ⟨add_fst s c, add_cellBit_self s c, ?_⟩
  intro n h
  have h1 : (s.add c).1 = true := by rw [add_fst, h]; rfl
  simp [addResults, h1, addResults_of_cellBit_true c n (s.add c).2 (add_cellBit_self s c)]

/-- Witness for C3 at a concrete input: three successive adds of block-tier
cell (0, 0) into a fresh set return `[true, false, false]`. -/
theorem add_true_iff_transition_witness :
    addResults (IsoCellSet.initial scenarioSubspace) (HeapCell.atom 0 0) 3 =
      [true, false, false] := by
  have h := (add_true_iff_transition (IsoCellSet.initial scenarioSubspace)
    (HeapCell.atom 0 0)).2.2 2 (by decide)
  simpa using h

/-- C4: `remove` returns true iff the call transitioned the cell's bit from 1
to 0 (its result is the previous bit, and the bit is 0 afterwards), and on a
block-tier cell whose block bitmap was never created it returns false with
the whole state unchanged — in particular no bitmap is allocated. -/
theorem remove_true_iff_transition :
    ∀ (s : IsoCellSet) (c : HeapCell),
      ((s.remove c).1 = s.cellBit c) ∧
      ((s.remove c).2.cellBit c = false) ∧
      (∀ bI aN : Nat, s.m_bits bI = none →
        s.remove (HeapCell.atom bI aN) = (false, s)) := by
  intro s c
  refine ⟨remove_fst s c, remove_cellBit_self s c, ?_⟩
  intro bI aN h
  simp [IsoCellSet.remove, h]

/-- Witness for C4 at a concrete input: removing block-tier cell (0, 3) from
a fresh set (no bitmap for block 0) returns false and leaves the set
untouched. -/
theorem remove_true_iff_transition_witness :
    (IsoCellSet.initial scenarioSubspace).remove (HeapCell.atom 0 3) =
      (false, IsoCellSet.initial scenarioSubspace) := by
  exact (remove_true_iff_transition (IsoCellSet.initial scenarioSubspace)
    (HeapCell.atom 0 3)).2.2 0 3 rfl

/-!
## The non-empty-block-index invariant (C9, C10)

On every state reachable from a fresh set by a sequence of `add` / `remove`
calls, the flag vector `m_blocksWithBits` agrees exactly with "the block's
bitmap pointer is non-null": `addSlow` is the only writer of either, it sets
both together, and neither a bitmap nor a flag is ever retired.
-/

theorem add_flag_inv (s : IsoCellSet) (c : HeapCell)
    (h : ∀ i, s.m_blocksWithBits i = (s.m_bits i).isSome) :
    ∀ i, (s.add c).2.m_blocksWithBits i = ((s.add c).2.m_bits i).isSome := by
  cases c with
  | precise idx => exact h
  | atom bI aN =>
    intro i
    simp only [IsoCellSet.add]
    cases hb : s.m_bits bI with
    | some b =>
      simp only [hb]
      by_cases hi : i = bI
      · subst hi; simp [h i, hb]
      · simp [hi, h i]
    | none =>
      simp only [hb, IsoCellSet.addSlow]
      by_cases hi : i = bI
      · subst hi; simp
      · simp [hi, h i]

theorem remove_flag_inv (s : IsoCellSet) (c : HeapCell)
    (h : ∀ i, s.m_blocksWithBits i = (s.m_bits i).isSome) :
    ∀ i, (s.remove c).2.m_blocksWithBits i = ((s.remove c).2.m_bits i).isSome := by
  cases c with
  | precise idx => exact h
  | atom bI aN =>
    intro i
    simp only [IsoCellSet.remove]
    cases hb : s.m_bits bI with
    | some b =>
      simp only [hb]
      by_cases hi : i = bI
      · subst hi; simp [h i, hb]
      · simp [hi, h i]
    | none => simp only [hb]; exact h i

theorem applyOps_flag_inv :
    ∀ (ops : List SetOp) (s : IsoCellSet),
      (∀ i, s.m_blocksWithBits i = (s.m_bits i).isSome) →
      ∀ i, (applyOps s ops).m_blocksWithBits i = ((applyOps s ops).m_bits i).isSome := by
  intro ops
  induction ops with
  | nil => intro s h; exact h
  | cons op rest ih =>
    intro s h
    cases op with
    | add c => exact ih (s.add c).2 (add_flag_inv s c h)
    | remove c => exact ih (s.remove c).2 (remove_flag_inv s c h)

theorem reachable_flag_eq_isSome (sub : Subspace) (ops : List SetOp) :
    ∀ i, (applyOps (IsoCellSet.initial sub) ops).m_blocksWithBits i =
      ((applyOps (IsoCellSet.initial sub) ops).m_bits i).isSome :=
  applyOps_flag_inv ops (IsoCellSet.initial sub) (fun _ => rfl)

/-- C9: on every state reachable from a fresh set by `add` / `remove` calls,
the `NonEmptyBlockIndex` flag is a conservative superset: a set bit in block
`i`'s bitmap forces flag `i` (no false negative); a reachable state exists
(add then remove the same cell) whose flag is set while the block's bitmap is
all-zero (false positive tolerated); and the flags are never ground truth for
membership — `contains` is insensitive to replacing the whole flag vector. -/
theorem blocksWithBits_conservative_superset :
    (∀ (sub : Subspace) (ops : List SetOp) (i a : Nat),
      (applyOps (IsoCellSet.initial sub) ops).cellBit (HeapCell.atom i a) = true →
      (applyOps (IsoCellSet.initial sub) ops).m_blocksWithBits i = true) ∧
    ((applyOps (IsoCellSet.initial scenarioSubspace)
        [SetOp.add (HeapCell.atom 0 0), SetOp.remove (HeapCell.atom 0 0)]).m_blocksWithBits 0
        = true ∧
      ∀ a : Nat, (applyOps (IsoCellSet.initial scenarioSubspace)
        [SetOp.add (HeapCell.atom 0 0), SetOp.remove (HeapCell.atom 0 0)]).cellBit
          (HeapCell.atom 0 a) = false) ∧
    (∀ (s : IsoCellSet) (f : Nat → Bool) (c : HeapCell),
      ({ s with m_blocksWithBits := f } : IsoCellSet).contains c = s.contains c) := by
  refine ⟨?_, ⟨by decide, ?_⟩, ?_⟩
  · intro sub ops i a hbit
    rw [reachable_flag_eq_isSome sub ops i]
    revert hbit
    simp only [IsoCellSet.cellBit]
    cases h : (applyOps (IsoCellSet.initial sub) ops).m_bits i <;> simp
  · intro a
    simp [applyOps, IsoCellSet.add, IsoCellSet.remove, IsoCellSet.addSlow,
      IsoCellSet.initial, IsoCellSet.cellBit]
  · intro s f c
    cases c <;> rfl

/-- Witness for C9 at a concrete input: after adding block-tier cell (0, 0)
to a fresh set, the set bit forces the non-empty flag of block 0. -/
theorem blocksWithBits_conservative_superset_witness :
    (applyOps (IsoCellSet.initial scenarioSubspace)
      [SetOp.add (HeapCell.atom 0 0)]).m_blocksWithBits 0 = true := by
  exact blocksWithBits_conservative_superset.1 scenarioSubspace
    [SetOp.add (HeapCell.atom 0 0)] 0 0 (by decide)

/-- C10: on every state reachable from a fresh set by `add` / `remove`
calls, a set `NonEmptyBlockIndex` flag implies the block's bitmap pointer is
non-null — so the enumerations, which dereference the pointer with no null
check for every block surviving the skip filter, never read through null. -/
theorem flagged_block_has_bitmap :
    ∀ (sub : Subspace) (ops : List SetOp) (i : Nat),
      (applyOps (IsoCellSet.initial sub) ops).m_blocksWithBits i = true →
      ((applyOps (IsoCellSet.initial sub) ops).m_bits i).isSome := by
  intro sub ops i h
  rw [reachable_flag_eq_isSome sub ops i] at h
  exact h

/-- Witness for C10 at a concrete input: after adding block-tier cell (0, 0)
to a fresh set, block 0's flag is set and its bitmap pointer is non-null. -/
theorem flagged_block_has_bitmap_witness :
    ((applyOps (IsoCellSet.initial scenarioSubspace)
      [SetOp.add (HeapCell.atom 0 0)]).m_bits 0).isSome := by
  exact flagged_block_has_bitmap scenarioSubspace [SetOp.add (HeapCell.atom 0 0)] 0 (by decide)

/-!
## Enumeration membership lemmas (towards C5, C6, C7)
-/

theorem cellBit_atom_eq_getD (s : IsoCellSet) (bI aN : Nat) :
    s.cellBit (HeapCell.atom bI aN) = ((s.m_bits bI).getD (fun _ => false)) aN := by
  cases h : s.m_bits bI <;> simp [IsoCellSet.cellBit, h]

theorem mem_atom_markedMemberAtomsOfBlock (s : IsoCellSet) (bI' bI aN : Nat) :
    HeapCell.atom bI aN ∈ s.markedMemberAtomsOfBlock bI' ↔
      bI' = bI ∧ aN < (s.m_subspace.m_directory.m_blocks bI').numAtoms ∧
      (s.m_subspace.m_directory.m_blocks bI').markedBits aN = true ∧
      ((s.m_bits bI').getD (fun _ => false)) aN = true := by
  simp only [IsoCellSet.markedMemberAtomsOfBlock, List.mem_filterMap, List.mem_range]
  constructor
  · rintro ⟨a, ha, heq⟩
    split_ifs at heq with h1 h2
    · simp only [Option.some.injEq, HeapCell.atom.injEq] at heq
      obtain ⟨rfl, rfl⟩ := heq
      exact ⟨rfl, ha, h1, h2⟩
  · rintro ⟨rfl, ha, hm, hb⟩
    exact ⟨aN, ha, by simp [hm, hb]⟩

theorem atom_not_mem_markedPreciseVisits (s : IsoCellSet) (bI aN : Nat) :
    HeapCell.atom bI aN ∉ s.markedPreciseVisits := by
  simp only [IsoCellSet.markedPreciseVisits, List.mem_filterMap, not_exists]
  intro al
  rintro ⟨_, heq⟩
  split_ifs at heq
  simp at heq

theorem precise_not_mem_markedMemberAtomsOfBlock (s : IsoCellSet) (bI' idx : Nat) :
    HeapCell.precise idx ∉ s.markedMemberAtomsOfBlock bI' := by
  simp only [IsoCellSet.markedMemberAtomsOfBlock, List.mem_filterMap, not_exists]
  intro a
  rintro ⟨_, heq⟩
  split_ifs at heq
  simp at heq

theorem mem_precise_markedPreciseVisits (s : IsoCellSet) (idx : Nat) :
    HeapCell.precise idx ∈ s.markedPreciseVisits ↔
      s.m_lowerTierPreciseBits idx = true ∧
      ∃ al, al ∈ s.m_subspace.preciseAllocations ∧
        al.lowerTierPreciseIndex = idx ∧ al.isMarked = true := by
  simp only [IsoCellSet.markedPreciseVisits, List.mem_filterMap]
  constructor
  · rintro ⟨al, hal, heq⟩
    split_ifs at heq with h
    · simp only [Option.some.injEq, HeapCell.precise.injEq] at heq
      subst heq
      rw [Bool.and_eq_true] at h
      exact ⟨h.1, al, hal, rfl, h.2⟩
  · rintro ⟨hb, al, hal, rfl, hm⟩
    exact ⟨al, hal, by simp [hb, hm]⟩

/-- C5: `forEachMarkedCell` visits exactly the marked members.  Block tier: a
cell `(bI, aN)` in range is visited iff its block survives the intersection
of the directory's marking-not-empty view with the set's non-empty index, its
marked bit is on, and its set bit is on.  Precise tier: a precise cell is
visited iff its set bit is on and a subspace allocation with its index is
marked.  And in the §8 scenario the enumeration reports exactly
(block 0, atom 0), (block 1, atom 1), (large object) — atom 2 of block 0 is
excluded because unmarked despite being a member. -/
theorem forEachMarkedCell_visits_exactly_marked_members :
    (∀ (s : IsoCellSet) (bI aN : Nat),
      bI < s.m_subspace.m_directory.numBlocks →
      aN < (s.m_subspace.m_directory.m_blocks bI).numAtoms →
      (HeapCell.atom bI aN ∈ s.forEachMarkedCell ↔
        s.m_subspace.m_directory.markingNotEmpty bI = true ∧
        s.m_blocksWithBits bI = true ∧
        (s.m_subspace.m_directory.m_blocks bI).markedBits aN = true ∧
        s.cellBit (HeapCell.atom bI aN) = true)) ∧
    (∀ (s : IsoCellSet) (idx : Nat),
      HeapCell.precise idx ∈ s.forEachMarkedCell ↔
        s.m_lowerTierPreciseBits idx = true ∧
        ∃ al, al ∈ s.m_subspace.preciseAllocations ∧
          al.lowerTierPreciseIndex = idx ∧ al.isMarked = true) ∧
    scenarioSet.forEachMarkedCell =
      [HeapCell.atom 0 0, HeapCell.atom 1 1, HeapCell.precise 0] := by
  refine ⟨?_, ?_, by decide⟩
  · intro s bI aN hb ha
    rw [cellBit_atom_eq_getD]
    simp only [IsoCellSet.forEachMarkedCell, List.mem_append, List.mem_flatMap,
      List.mem_range]
    constructor
    · rintro (⟨b, hbr, hmem⟩ | hmem)
      · split_ifs at hmem with hc
        · rw [mem_atom_markedMemberAtomsOfBlock] at hmem
          obtain ⟨rfl, _, hm, hbit⟩ := hmem
          rw [Bool.and_eq_true] at hc
          exact ⟨hc.1, hc.2, hm, hbit⟩
        · simp at hmem
      · exact absurd hmem (atom_not_mem_markedPreciseVisits s bI aN)
    · rintro ⟨h1, h2, h3, h4⟩
      refine Or.inl ⟨bI, hb, ?_⟩
      rw [if_pos (by simp [h1, h2]), mem_atom_markedMemberAtomsOfBlock]
      exact ⟨rfl, ha, h3, h4⟩
  · intro s idx
    simp only [IsoCellSet.forEachMarkedCell, List.mem_append, List.mem_flatMap,
      List.mem_range]
    rw [← mem_precise_markedPreciseVisits]
    constructor
    · rintro (⟨b, _, hmem⟩ | hmem)
      · split_ifs at hmem with hc
        · exact absurd hmem (precise_not_mem_markedMemberAtomsOfBlock s b idx)
        · simp at hmem
      · exact hmem
    · exact Or.inr

/-- Witness for C5 at a concrete input: in the §8 scenario, block-tier cell
(0, 0) — member and marked — is visited, and the precise allocation is
visited. -/
theorem forEachMarkedCell_visits_exactly_marked_members_witness :
    HeapCell.atom 0 0 ∈ scenarioSet.forEachMarkedCell ∧
    HeapCell.precise 0 ∈ scenarioSet.forEachMarkedCell := by
  constructor
  · exact (forEachMarkedCell_visits_exactly_marked_members.1 scenarioSet 0 0
      (by decide) (by decide)).mpr ⟨by decide, by decide, by decide, by decide⟩
  · exact (forEachMarkedCell_visits_exactly_marked_members.2.1 scenarioSet 0).mpr
      ⟨by decide, { lowerTierPreciseIndex := 0, isMarked := true, isLive := true },
        by decide, rfl, rfl⟩

/-- C6: `forEachLiveCell` visits a cell iff it is both a set member and
currently live.  Block tier: given the no-false-negative flag invariant for
the cell's block (which holds on all reachable states, C9), a cell `(bI, aN)`
in range is visited iff its set bit and its block-local liveness bit are both
on — the enumeration ranges over ALL atoms of each non-empty block and
applies the liveness check per atom, so a member that is not live at
enumeration time is excluded.  Precise tier: a precise cell is visited iff
its set bit is on and a subspace allocation with its index is live. -/
theorem forEachLiveCell_visits_exactly_live_members :
    (∀ (s : IsoCellSet) (bI aN : Nat),
      bI < s.m_subspace.m_directory.numBlocks →
      aN < (s.m_subspace.m_directory.m_blocks bI).numAtoms →
      (s.cellBit (HeapCell.atom bI aN) = true → s.m_blocksWithBits bI = true) →
      (HeapCell.atom bI aN ∈ s.forEachLiveCell ↔
        s.cellBit (HeapCell.atom bI aN) = true ∧
        (s.m_subspace.m_directory.m_blocks bI).liveBits aN = true)) ∧
    (∀ (s : IsoCellSet) (idx : Nat),
      HeapCell.precise idx ∈ s.forEachLiveCell ↔
        s.m_lowerTierPreciseBits idx = true ∧
        ∃ al, al ∈ s.m_subspace.preciseAllocations ∧
          al.lowerTierPreciseIndex = idx ∧ al.isLive = true) := by
  constructor
  · intro s bI aN hb ha hinv
    rw [cellBit_atom_eq_getD] at hinv ⊢
    simp only [IsoCellSet.forEachLiveCell, List.mem_append, List.mem_flatMap,
      List.mem_range, List.mem_filterMap]
    constructor
    · rintro (⟨b, hbr, hmem⟩ | hmem)
      · split_ifs at hmem with hc
        · simp only [List.mem_filterMap, List.mem_range] at hmem
          obtain ⟨a, har, heq⟩ := hmem
          split_ifs at heq with h1
          · simp only [Option.some.injEq, HeapCell.atom.injEq] at heq
            obtain ⟨rfl, rfl⟩ := heq
            rw [Bool.and_eq_true] at h1
            exact ⟨h1.1, h1.2⟩
        · simp at hmem
      · exfalso
        obtain ⟨al, _, heq⟩ := hmem
        split_ifs at heq
        simp at heq
    · rintro ⟨h1, h2⟩
      refine Or.inl ⟨bI, hb, ?_⟩
      rw [if_pos (hinv h1)]
      simp only [List.mem_filterMap, List.mem_range]
      exact ⟨aN, ha, by simp [h1, h2]⟩
  · intro s idx
    simp only [IsoCellSet.forEachLiveCell, List.mem_append, List.mem_flatMap,
      List.mem_range, List.mem_filterMap]
    constructor
    · rintro (⟨b, _, hmem⟩ | hmem)
      · exfalso
        split_ifs at hmem with hc
        · simp only [List.mem_filterMap, List.mem_range] at hmem
          obtain ⟨a, _, heq⟩ := hmem
          split_ifs at heq
          simp at heq
        · simp at hmem
      · obtain ⟨al, hal, heq⟩ := hmem
        split_ifs at heq with h
        · simp only [Option.some.injEq, HeapCell.precise.injEq] at heq
          subst heq
          rw [Bool.and_eq_true] at h
          exact ⟨h.1, al, hal, rfl, h.2⟩
    · rintro ⟨hb', al, hal, rfl, hl⟩
      exact Or.inr ⟨al, hal, by simp [hb', hl]⟩

/-- Witness for C6 at a concrete input: in the §8 scenario (all cells live)
the member cell (0, 0) is visited by `forEachLiveCell`, and the member
precise allocation is visited. -/
theorem forEachLiveCell_visits_exactly_live_members_witness :
    HeapCell.atom 0 0 ∈ scenarioSet.forEachLiveCell ∧
    HeapCell.precise 0 ∈ scenarioSet.forEachLiveCell := by
  constructor
  · exact (forEachLiveCell_visits_exactly_live_members.1 scenarioSet 0 0
      (by decide) (by decide) (fun _ => by decide)).mpr ⟨by decide, by decide⟩
  · exact (forEachLiveCell_visits_exactly_live_members.2 scenarioSet 0).mpr
      ⟨by decide, { lowerTierPreciseIndex := 0, isMarked := true, isLive := true },
        by decide, rfl, rfl⟩

/-!
## The parallel enumeration task (C7)
-/

theorem flagClaims_true (n : Nat) : flagClaims true n = List.replicate n true := by
  induction n with
  | zero => rfl
  | succ n ih => simp [flagClaims, ih, List.replicate_succ]

theorem flagClaimResults_one_winner (n : Nat) (h : 1 ≤ n) :
    (flagClaimResults n).count false = 1 := by
  cases n with
  | zero => exact absurd h (by decide)
  | succ m =>
    simp [flagClaimResults, flagClaims, flagClaims_true, List.count_cons,
      List.count_replicate]

theorem flatMap_ite_eq_filter_flatMap {α β : Type} (c : α → Bool) (f : α → List β) :
    ∀ l : List α, (l.flatMap fun b => if c b then f b else []) = (l.filter c).flatMap f := by
  intro l
  induction l with
  | nil => rfl
  | cons x xs ih =>
    by_cases h : c x = true
    · simp [List.filter_cons, h, ih]
    · simp [List.filter_cons, h, ih]

theorem flatten_flatMap {α β : Type} (f : α → List β) :
    ∀ L : List (List α), L.flatten.flatMap f = L.flatMap fun p => p.flatMap f := by
  intro L
  induction L with
  | nil => rfl
  | cons p rest ih => simp [ih]

theorem forEachMarkedCell_eq_source_flatMap (s : IsoCellSet) :
    s.forEachMarkedCell =
      (s.parallelNotEmptyMarkedBlockSource).flatMap s.markedMemberAtomsOfBlock ++
        s.markedPreciseVisits := by
  unfold IsoCellSet.forEachMarkedCell IsoCellSet.parallelNotEmptyMarkedBlockSource
  rw [flatMap_ite_eq_filter_flatMap]

theorem zip_replicate_true_flatMap (s : IsoCellSet) :
    ∀ rest : List (List Nat),
      ((List.zip rest (List.replicate rest.length true)).flatMap fun p =>
          workerVisits s p.1 (!p.2)) =
        rest.flatMap fun q => q.flatMap s.markedMemberAtomsOfBlock := by
  intro rest
  induction rest with
  | nil => rfl
  | cons q qs ih =>
    simp only [List.length_cons, List.replicate_succ, List.zip_cons_cons, List.flatMap_cons]
    rw [ih]
    simp [workerVisits]

theorem parallelRunVisits_perm (s : IsoCellSet) (parts : List (List Nat))
    (h : 1 ≤ parts.length) :
    (parallelRunVisits s parts).Perm
      (parts.flatten.flatMap s.markedMemberAtomsOfBlock ++ s.markedPreciseVisits) := by
  cases parts with
  | nil => exact absurd h (by decide)
  | cons p rest =>
    have hzip :
        parallelRunVisits s (p :: rest) =
          (p.flatMap s.markedMemberAtomsOfBlock ++ s.markedPreciseVisits) ++
            rest.flatMap fun q => q.flatMap s.markedMemberAtomsOfBlock := by
      simp only [parallelRunVisits, List.length_cons, flagClaimResults, flagClaims,
        flagClaims_true, List.zip_cons_cons, List.flatMap_cons]
      rw [zip_replicate_true_flatMap]
      simp [workerVisits]
    rw [hzip]
    have hflat :
        (p :: rest).flatten.flatMap s.markedMemberAtomsOfBlock ++ s.markedPreciseVisits =
          (p.flatMap s.markedMemberAtomsOfBlock ++
            rest.flatMap fun q => q.flatMap s.markedMemberAtomsOfBlock) ++
            s.markedPreciseVisits := by
      simp [flatten_flatMap]
    rw [hflat, List.append_assoc, List.append_assoc]
    exact List.Perm.append_left _ List.perm_append_comm

theorem parallelRunVisits_perm_forEachMarkedCell (s : IsoCellSet)
    (parts : List (List Nat))
    (hsrc : parts.flatten.Perm s.parallelNotEmptyMarkedBlockSource)
    (h : 1 ≤ parts.length) :
    (parallelRunVisits s parts).Perm s.forEachMarkedCell := by
  refine (parallelRunVisits_perm s parts h).trans ?_
  rw [forEachMarkedCell_eq_source_flatMap]
  exact List.Perm.append_right _ (hsrc.flatMap_right _)

theorem nodup_markedMemberAtomsOfBlock (s : IsoCellSet) (bI : Nat) :
    (s.markedMemberAtomsOfBlock bI).Nodup := by
  refine List.Nodup.filterMap ?_ (List.nodup_range _)
  intro a a' b hb hb'
  split_ifs at hb hb' <;> simp at hb hb'
  rw [← hb] at hb'
  injection hb' with h1 h2
  exact h2.symm

theorem mem_markedMemberAtomsOfBlock_shape (s : IsoCellSet) (bI : Nat) (x : HeapCell)
    (hx : x ∈ s.markedMemberAtomsOfBlock bI) : ∃ a, x = HeapCell.atom bI a := by
  simp only [IsoCellSet.markedMemberAtomsOfBlock, List.mem_filterMap] at hx
  obtain ⟨a, _, heq⟩ := hx
  split_ifs at heq
  simp only [Option.some.injEq] at heq
  exact ⟨a, heq.symm⟩

theorem filterMap_ite_eq_map_filter {α β : Type} (p : α → Bool) (g : α → β) :
    ∀ l : List α,
      (l.filterMap fun a => if p a then some (g a) else none) = (l.filter p).map g := by
  intro l
  induction l with
  | nil => rfl
  | cons x xs ih =>
    by_cases h : p x = true
    · simp [List.filter_cons, h, ih]
    · simp [List.filter_cons, h, ih]

theorem nodup_markedPreciseVisits (s : IsoCellSet)
    (hidx : (s.m_subspace.preciseAllocations.map PreciseAllocation.lowerTierPreciseIndex).Nodup) :
    s.markedPreciseVisits.Nodup := by
  unfold IsoCellSet.markedPreciseVisits
  rw [filterMap_ite_eq_map_filter]
  have hmap :
      ((s.m_subspace.preciseAllocations.filter fun al =>
          s.m_lowerTierPreciseBits al.lowerTierPreciseIndex && al.isMarked).map
        fun al => HeapCell.precise al.lowerTierPreciseIndex) =
      ((s.m_subspace.preciseAllocations.filter fun al =>
          s.m_lowerTierPreciseBits al.lowerTierPreciseIndex && al.isMarked).map
        PreciseAllocation.lowerTierPreciseIndex).map HeapCell.precise := by
    simp [List.map_map, Function.comp]
  rw [hmap]
  refine List.Nodup.map (fun a a' h => ?_) ?_
  · injection h
  · exact hidx.sublist (List.Sublist.map _ (List.filter_sublist _))

theorem nodup_forEachMarkedCell (s : IsoCellSet)
    (hidx : (s.m_subspace.preciseAllocations.map PreciseAllocation.lowerTierPreciseIndex).Nodup) :
    s.forEachMarkedCell.Nodup := by
  rw [forEachMarkedCell_eq_source_flatMap]
  refine List.Nodup.append ?_ (nodup_markedPreciseVisits s hidx) ?_
  · rw [List.nodup_flatMap]
    refine ⟨fun b _ => nodup_markedMemberAtomsOfBlock s b, ?_⟩
    refine List.Pairwise.imp ?_ (List.Nodup.filter _ (List.nodup_range _))
    intro b b' hne
    intro x hx hx'
    obtain ⟨a, rfl⟩ := mem_markedMemberAtomsOfBlock_shape s b x hx
    obtain ⟨a', heq⟩ := mem_markedMemberAtomsOfBlock_shape s b' _ hx'
    simp only [HeapCell.atom.injEq] at heq
    exact hne heq.1
  · intro x hx hx'
    rw [List.mem_flatMap] at hx
    obtain ⟨b, _, hmem⟩ := hx
    obtain ⟨a, rfl⟩ := mem_markedMemberAtomsOfBlock_shape s b x hmem
    exact atom_not_mem_markedPreciseVisits s b a hx'

/-- C7: a complete run of the `forEachMarkedCellInParallel` task with any
number `W ≥ 1` of workers — any distribution of the shared exactly-once block
source among the workers (`parts`, whose concatenation is the source's
population in some order), the one-shot `test_and_set` flag claimed once per
worker in finishing order — visits every cell visited by the sequential
`forEachMarkedCell` exactly once in total across all workers and visits
nothing else, and exactly one worker (the first flag claimer) performs the
precise-allocation sweep. -/
theorem parallel_visits_each_marked_member_once :
    ∀ (s : IsoCellSet) (parts : List (List Nat)),
      parts.flatten.Perm s.parallelNotEmptyMarkedBlockSource →
      1 ≤ parts.length →
      (s.m_subspace.preciseAllocations.map PreciseAllocation.lowerTierPreciseIndex).Nodup →
      ((flagClaimResults parts.length).count false = 1) ∧
      (∀ cell, cell ∈ s.forEachMarkedCell → (parallelRunVisits s parts).count cell = 1) ∧
      (∀ cell, cell ∉ s.forEachMarkedCell → (parallelRunVisits s parts).count cell = 0) := by
  intro s parts hsrc hw hidx
  have hperm := parallelRunVisits_perm_forEachMarkedCell s parts hsrc hw
  refine ⟨flagClaimResults_one_winner parts.length hw, ?_, ?_⟩
  · intro cell hmem
    rw [hperm.count_eq]
    exact List.count_eq_one_of_mem (nodup_forEachMarkedCell s hidx) hmem
  · intro cell hmem
    rw [hperm.count_eq]
    exact List.count_eq_zero_of_not_mem hmem

/-- Witness for C7 at a concrete input: the §8 scenario run with two workers,
worker 0 claiming block 0 and worker 1 claiming block 1 — each of the three
marked member cells is visited exactly once, and exactly one worker sweeps
the precise allocations. -/
theorem parallel_visits_each_marked_member_once_witness :
    (flagClaimResults 2).count false = 1 ∧
    (parallelRunVisits scenarioSet [[0], [1]]).count (HeapCell.atom 0 0) = 1 ∧
    (parallelRunVisits scenarioSet [[0], [1]]).count (HeapCell.atom 1 1) = 1 ∧
    (parallelRunVisits scenarioSet [[0], [1]]).count (HeapCell.precise 0) = 1 ∧
    (parallelRunVisits scenarioSet [[0], [1]]).count (HeapCell.atom 0 2) = 0 := by
  have h := parallel_visits_each_marked_member_once scenarioSet [[0], [1]]
    (by decide) (by decide) (by decide)
  exact ⟨h.1, h.2.1 _ (by decide), h.2.1 _ (by decide), h.2.1 _ (by decide),
    h.2.2 _ (by decide)⟩

/-!
## The provisioning race (C8)
-/

theorem raceStep_slot_mono (intents : Nat → Nat) (s : RaceState) (t k : Nat)
    (h : s.slot = some k) : (raceStep intents s t).slot = some k := by
  unfold raceStep
  split <;> simp [h]

theorem foldl_raceStep_slot_mono (intents : Nat → Nat) :
    ∀ (l : List Nat) (s : RaceState) (k : Nat), s.slot = some k →
      (l.foldl (raceStep intents) s).slot = some k := by
  intro l
  induction l with
  | nil => intro s k h; exact h
  | cons t rest ih =>
    intro s k h
    exact ih (raceStep intents s t) k (raceStep_slot_mono intents s t k h)

theorem raceStep_inv (intents : Nat → Nat) (s : RaceState) (t : Nat)
    (h1 : s.slot.isSome → s.flag = true)
    (h2 : ∀ u, 1 ≤ s.pc u → s.slot.isSome)
    (h3 : ∀ u, s.pc u = 2 → s.bitmapBits (intents u) = true) :
    ((raceStep intents s t).slot.isSome → (raceStep intents s t).flag = true) ∧
    (∀ u, 1 ≤ (raceStep intents s t).pc u → (raceStep intents s t).slot.isSome) ∧
    (∀ u, (raceStep intents s t).pc u = 2 →
      (raceStep intents s t).bitmapBits (intents u) = true) := by
  unfold raceStep
  split
  · -- pc t = 0: set the flag, CAS-install, advance to 1
    refine ⟨fun _ => rfl, fun u _ => ?_, fun u hu => ?_⟩
    · cases h : s.slot <;> simp [h]
    · simp only at hu
      by_cases hut : u = t
      · subst hut; simp at hu
      · simp only [hut, if_neg] at hu
        simp [h3 u hu]
  · -- pc t = 1: test-and-set the intended bit, advance to 2
    rename_i hpc
    refine ⟨h1, fun u _ => h2 t (by rw [hpc]), fun u hu => ?_⟩
    simp only at hu ⊢
    by_cases hut : u = t
    · subst hut; simp
    · simp only [hut, if_neg] at hu
      simp [h3 u hu]
  · -- done: no-op
    exact ⟨h1, h2, h3⟩

theorem raceRun_inv (intents : Nat → Nat) :
    ∀ (sched : List Nat) (s : RaceState),
      (s.slot.isSome → s.flag = true) →
      (∀ u, 1 ≤ s.pc u → s.slot.isSome) →
      (∀ u, s.pc u = 2 → s.bitmapBits (intents u) = true) →
      (((sched.foldl (raceStep intents) s).slot.isSome →
          (sched.foldl (raceStep intents) s).flag = true) ∧
        (∀ u, 1 ≤ (sched.foldl (raceStep intents) s).pc u →
          (sched.foldl (raceStep intents) s).slot.isSome) ∧
        (∀ u, (sched.foldl (raceStep intents) s).pc u = 2 →
          (sched.foldl (raceStep intents) s).bitmapBits (intents u) = true)) := by
  intro sched
  induction sched with
  | nil => intro s h1 h2 h3; exact ⟨h1, h2, h3⟩
  | cons t rest ih =>
    intro s h1 h2 h3
    obtain ⟨g1, g2, g3⟩ := raceStep_inv intents s t h1 h2 h3
    exact ih (raceStep intents s t) g1 g2 g3

/-- C8: in the §4.2 provisioning race — `N` threads racing to perform the
first adds into a block with no bitmap, under an arbitrary interleaving
`sched` of their steps — once every thread has completed: (a) exactly one
candidate bitmap is ever installed: the slot holds one winner `k` and at
every point of the run it held either nothing or that same `k`; (b) no add
is lost: every thread's intended bit is set in the installed bitmap, even
for threads whose candidate lost the install race; (c) the block's
`NonEmptyBlockIndex` flag is set no later than installation — at every
point of the run, an installed bitmap implies the flag is up. -/
theorem raceRun_inv_init (intents : Nat → Nat) (sched : List Nat) :
    (((raceRun intents sched).slot.isSome → (raceRun intents sched).flag = true) ∧
      (∀ u, 1 ≤ (raceRun intents sched).pc u → (raceRun intents sched).slot.isSome) ∧
      (∀ u, (raceRun intents sched).pc u = 2 →
        (raceRun intents sched).bitmapBits (intents u) = true)) :=
  raceRun_inv intents sched RaceState.init
    (by intro h; simp [RaceState.init] at h)
    (by intro u h; simp [RaceState.init] at h)
    (by intro u h; simp [RaceState.init] at h)

theorem provisioning_race_safe :
    ∀ (intents : Nat → Nat) (sched : List Nat) (N : Nat),
      1 ≤ N →
      (∀ t, t < N → (raceRun intents sched).pc t = 2) →
      (∃ k, (raceRun intents sched).slot = some k ∧
        ∀ pre suf, sched = pre ++ suf →
          (raceRun intents pre).slot = none ∨ (raceRun intents pre).slot = some k) ∧
      (∀ t, t < N → (raceRun intents sched).bitmapBits (intents t) = true) ∧
      (∀ pre suf, sched = pre ++ suf →
        (raceRun intents pre).slot.isSome → (raceRun intents pre).flag = true) := by
  intro intents sched N hN hdone
  have hinv := raceRun_inv_init intents sched
  have hsome : (raceRun intents sched).slot.isSome := by
    exact hinv.2.1 0 (by rw [hdone 0 hN]; decide)
  obtain ⟨k, hk⟩ := Option.isSome_iff_exists.mp hsome
  refine ⟨⟨k, hk, ?_⟩, ?_, ?_⟩
  · intro pre suf hps
    cases hpre : (raceRun intents pre).slot with
    | none => exact Or.inl rfl
    | some j =>
      refine Or.inr ?_
      have hmono := foldl_raceStep_slot_mono intents suf (raceRun intents pre) j hpre
      have hfin : (raceRun intents sched).slot = some j := by
        rw [hps]
        unfold raceRun
        rw [List.foldl_append]
        exact hmono
      rw [hfin] at hk
      rw [Option.some.injEq] at hk
      rw [hk]
  · intro t ht
    exact hinv.2.2 t (hdone t ht)
  · intro pre suf hps
    exact (raceRun_inv_init intents pre).1

/-- Witness for C8 at a concrete input: two threads (intended atoms 0 and 1)
interleaved as `[0, 1, 0, 1]` — both complete, both bits end up set in the
one installed bitmap (installed by thread 0), and the flag is up. -/
theorem provisioning_race_safe_witness :
    (raceRun (fun t => t) [0, 1, 0, 1]).bitmapBits 0 = true ∧
    (raceRun (fun t => t) [0, 1, 0, 1]).bitmapBits 1 = true ∧
    (raceRun (fun t => t) [0, 1, 0, 1]).flag = true := by
  have h := provisioning_race_safe (fun t => t) [0, 1, 0, 1] 2 (by decide)
    (by decide)
  refine ⟨h.2.1 0 (by decide), h.2.1 1 (by decide), ?_⟩
  exact h.2.2 [0, 1, 0, 1] [] (by simp) (by decide)

end JSC
